import Mathlib

/-!
Shallow embedding of the numerical core of PowderGui (`core.py`), together
with theorems checking the specified properties of its algorithms.

Machine floats are modelled as exact rationals (`ℚ`), except for the
transcendental lineshape functions, which are modelled over the reals.
External library routines (the simplex minimizer of `scipy.optimize.minimize`
and the nonlinear least-squares fitter of `scipy.optimize.curve_fit`) enter
the embedding as explicit function parameters.
-/

set_option maxRecDepth 10000

attribute [local semireducible] Rat.add Rat.mul Rat.sub Rat.inv

/-- Embedding of `Gaussian(x, xc, width_g)` from `core.py`:
`exp(-(x - xc)**2 / (2*width_g)**2)`, a Gaussian of maximal height 1. -/
noncomputable def Gaussian (x xc width_g : ℝ) : ℝ :=
  Real.exp (-(x - xc) ^ 2 / (2 * width_g) ^ 2)

/-- Embedding of `Lorentzian(x, xc, width_l)` from `core.py`:
`(width_l/2)**2 / ((x - xc)**2 + (width_l/2)**2)`, maximal height 1. -/
noncomputable def Lorentzian (x xc width_l : ℝ) : ℝ :=
  (width_l / 2) ^ 2 / ((x - xc) ^ 2 + (width_l / 2) ^ 2)

/-- Embedding of `pseudoVoigt(x, height, xc, width_g, width_l, constant)` from `core.py`:
`height*(0.5*Gaussian(x, xc, width_g) + 0.5*Lorentzian(x, xc, width_l)) + constant`. -/
noncomputable def pseudoVoigt (x height xc width_g width_l constant : ℝ) : ℝ :=
  height * (0.5 * Gaussian x xc width_g + 0.5 * Lorentzian x xc width_l) + constant

/-- Claim C1: for every coordinate `x`, height, center `xc`, nonzero widths and
constant, the pseudo-Voigt profile evaluated at `x = xc` is exactly
`height + constant`, because the Gaussian and the Lorentzian both evaluate to
`1` at their own center. -/
theorem pseudoVoigt_at_center (x height xc width_g width_l constant : ℝ)
    (hg : width_g ≠ 0) (hl : width_l ≠ 0) (hx : x = xc) :
    Gaussian x xc width_g = 1 ∧ Lorentzian x xc width_l = 1 ∧
      pseudoVoigt x height xc width_g width_l constant = height + constant := by
  subst hx
  have hG : Gaussian x x width_g = 1 := by
    simp [Gaussian]
  have h2 : ((width_l / 2) ^ 2 : ℝ) ≠ 0 :=
    pow_ne_zero 2 (div_ne_zero hl two_ne_zero)
  have hL : Lorentzian x x width_l = 1 := by
    simp only [Lorentzian, sub_self]
    rw [zero_pow (by norm_num), zero_add, div_self h2]
  refine ⟨hG, hL, ?_⟩
  rw [pseudoVoigt, hG, hL]
  ring

/-- Witness for claim C1, at the concrete input
`x = xc = 2`, `height = 3`, `width_g = width_l = 1`, `constant = 5`. -/
theorem pseudoVoigt_at_center_witness :
    (1 : ℝ) ≠ 0 ∧ pseudoVoigt 2 3 2 1 1 5 = 3 + 5 :=
  ⟨one_ne_zero, (pseudoVoigt_at_center 2 3 2 1 1 5 one_ne_zero one_ne_zero rfl).2.2⟩

/-- A square detector image of side `size`, with pixel intensities indexed by
(row `i`, column `j`).  Intensities are modelled as exact rationals. -/
structure Image where
  size : ℕ
  pixel : ℕ → ℕ → ℚ

/-- The list of pixel index pairs `(i, j)` of an `s × s` image, in the
row-major order of `numpy.ndenumerate`. -/
def pixGrid (s : ℕ) : List (ℕ × ℕ) :=
  (List.range s).product (List.range s)

theorem mem_pixGrid {s : ℕ} {p : ℕ × ℕ} : p ∈ pixGrid s ↔ p.1 < s ∧ p.2 < s := by
  obtain ⟨i, j⟩ := p
  simp [pixGrid, List.pair_mem_product]

theorem pixGrid_nodup (s : ℕ) : (pixGrid s).Nodup :=
  (List.nodup_range s).product (List.nodup_range s)

/-- The pixels sampled by `circ` (`core.py`, line 87): the image is meshed with
`linspace(1, s, s)`, so pixel `(i, j)` carries coordinates `(j+1, i+1)`; `circ`
keeps the pixels with `(xMat-xgs)**2 + (yMat-ygs)**2 - rgs**2 < 10` and
`yMat > 550`, where `(xgs, ygs, rgs)` is the already-scaled trial triple. -/
def circSampled (s : ℕ) (xgs ygs rgs : ℚ) : List (ℕ × ℕ) :=
  (pixGrid s).filter fun p =>
    decide (((p.2 : ℚ) + 1 - xgs) ^ 2 + ((p.1 : ℚ) + 1 - ygs) ^ 2 - rgs ^ 2 < 10
      ∧ 550 < (p.1 : ℚ) + 1)

/-- Embedding of `circ(xg, yg, rg, im, scalefactor)` from `core.py`: it multiplies the trial
triple by `scalefactor`, samples the pixels of `circSampled`, and returns the
reciprocal of the mean sampled intensity (`none` models the NaN produced by the
mean of an empty sample). -/
def circ (xg yg rg : ℚ) (im : Image) (scalefactor : ℚ) : Option ℚ :=
  let pts := circSampled im.size (xg * scalefactor) (yg * scalefactor) (rg * scalefactor)
  if pts = [] then none
  else some (((pts.map fun p => im.pixel p.1 p.2).sum / (pts.length : ℚ))⁻¹)

/-- The objective `c1` built inside `fCenter` (`core.py`, line 55):
`lambda x: circ(x[0], x[1], x[2], im)`, which leaves `circ`'s scale factor at
its default value `20` no matter what scale factor `fCenter` received. -/
def fCenterObjective (im : Image) (p : ℚ × ℚ × ℚ) : Option ℚ :=
  circ p.1 p.2.1 p.2.2 im 20

/-- Embedding of `fCenter(xg, yg, rg, im, scalefactor)` from `core.py`.  The downhill
simplex routine `scipy.optimize.minimize(..., method='Nelder-Mead')` is an
external collaborator, modelled as the explicit parameter `minimize` mapping
an objective and a starting triple to the optimizer's final triple.  Note line
59: `rcenter = rg` overrides the optimized radius with the original guess. -/
def fCenter (minimize : ((ℚ × ℚ × ℚ) → Option ℚ) → (ℚ × ℚ × ℚ) → ℚ × ℚ × ℚ)
    (xg yg rg : ℚ) (im : Image) (scalefactor : ℚ) : ℚ × ℚ × ℚ :=
  let xgscaled := xg / scalefactor
  let ygscaled := yg / scalefactor
  let rgscaled := rg / scalefactor
  let res := minimize (fCenterObjective im) (xgscaled, ygscaled, rgscaled)
  (res.1 * scalefactor, res.2.1 * scalefactor, rg)

/-- The pixel set asserted by the specification for the cost function at trial
`(x, y, r)`: pixels whose squared distance to the trial center differs from
the trial radius squared by less than 10 (a two-sided tolerance), restricted
to rows beyond the 550 cutoff. -/
def specContourSet (s : ℕ) (x y r : ℚ) : Finset (ℕ × ℕ) :=
  (Finset.range s ×ˢ Finset.range s).filter fun p =>
    |((p.2 : ℚ) + 1 - x) ^ 2 + ((p.1 : ℚ) + 1 - y) ^ 2 - r ^ 2| < 10
      ∧ 550 < (p.1 : ℚ) + 1

/-- The pixel set the cost function actually samples at trial `(x, y, r)`: the
trial is first rescaled by the fixed factor 20, and the distance test is
one-sided, so every pixel strictly inside the rescaled circle also passes. -/
def scaledContourSet (s : ℕ) (x y r : ℚ) : Finset (ℕ × ℕ) :=
  (Finset.range s ×ˢ Finset.range s).filter fun p =>
    ((p.2 : ℚ) + 1 - 20 * x) ^ 2 + ((p.1 : ℚ) + 1 - 20 * y) ^ 2 < (20 * r) ^ 2 + 10
      ∧ 550 < (p.1 : ℚ) + 1

/-- A flat all-ones detector image of side 560, large enough to reach the
row cutoff of the contour cost function. -/
def imFlat : Image where
  size := 560
  pixel := fun _ _ => 1

/-- A one-pixel image, used to instantiate theorems at a concrete input. -/
def imTiny : Image where
  size := 1
  pixel := fun _ _ => 0

/-- An all-ones `3 × 3` image, used to instantiate theorems at a concrete
input. -/
def im3 : Image where
  size := 3
  pixel := fun _ _ => 1

theorem circSampled_toFinset (im : Image) (x y r : ℚ) :
    (circSampled im.size (x * 20) (y * 20) (r * 20)).toFinset
      = scaledContourSet im.size x y r := by
  ext p
  obtain ⟨i, j⟩ := p
  simp only [List.mem_toFinset, circSampled, List.mem_filter, mem_pixGrid,
    decide_eq_true_eq, scaledContourSet, Finset.mem_filter, Finset.mem_product,
    Finset.mem_range]
  constructor
  · rintro ⟨⟨hi, hj⟩, hlt, hrow⟩
    refine ⟨⟨hi, hj⟩, ?_, hrow⟩
    ring_nf at hlt ⊢
    linarith
  · rintro ⟨⟨hi, hj⟩, hlt, hrow⟩
    refine ⟨⟨hi, hj⟩, ?_, hrow⟩
    ring_nf at hlt ⊢
    linarith

/-- Counterexample to claim C3, at the all-ones image `imFlat` and the trial
triple `(1, 555, 1)`: pixel `(554, 0)` belongs to the pixel set described by
the claim, yet the cost function — whose trial is rescaled by 20 before
sampling, and whose distance test is one-sided — does not sample it, so the
sampled pixel set is not the claimed one. -/
theorem circ_sampled_counterexample :
    ((554, 0) : ℕ × ℕ) ∈ specContourSet 560 1 555 1 ∧
      ((554, 0) : ℕ × ℕ) ∉ circSampled imFlat.size (1 * 20) (555 * 20) (1 * 20) := by
  constructor
  · simp only [specContourSet, Finset.mem_filter, Finset.mem_product, Finset.mem_range]
    refine ⟨⟨by norm_num, by norm_num⟩, ?_, by norm_num⟩
    norm_num
  · intro h
    have h2 := (List.mem_filter.mp h).2
    simp only [decide_eq_true_eq] at h2
    norm_num [imFlat] at h2

/-- Claim C3 (amended): for every image and trial triple `(x, y, r)`, the cost
function's sampled pixel set is exactly the set of pixels whose squared
distance to the rescaled trial center `(20x, 20y)` exceeds the rescaled trial
radius squared `(20r)^2` by less than 10 — a one-sided test, which also admits
the whole interior of the circle — and whose row coordinate `i + 1` exceeds
550; the cost value is the reciprocal of the mean image intensity over that
pixel set, and is undefined when the set is empty. -/
theorem circ_cost_description (im : Image) (x y r : ℚ) :
    (circSampled im.size (x * 20) (y * 20) (r * 20)).toFinset
        = scaledContourSet im.size x y r ∧
      circ x y r im 20 =
        (if (scaledContourSet im.size x y r).Nonempty then
          some (((∑ p ∈ scaledContourSet im.size x y r, im.pixel p.1 p.2)
            / ((scaledContourSet im.size x y r).card : ℚ))⁻¹)
        else none) := by
  refine ⟨circSampled_toFinset im x y r, ?_⟩
  by_cases hempty : circSampled im.size (x * 20) (y * 20) (r * 20) = []
  · have hne : ¬ (scaledContourSet im.size x y r).Nonempty := by
      rw [← circSampled_toFinset im x y r, hempty]
      simp
    rw [circ]
    simp [hempty, hne]
  · have hnd : (circSampled im.size (x * 20) (y * 20) (r * 20)).Nodup :=
      (pixGrid_nodup im.size).filter _
    have hne : (scaledContourSet im.size x y r).Nonempty := by
      rw [← circSampled_toFinset im x y r]
      obtain ⟨a, ha⟩ := List.exists_mem_of_ne_nil _ hempty
      exact ⟨a, List.mem_toFinset.mpr ha⟩
    rw [circ]
    simp only [if_pos hne]
    rw [← circSampled_toFinset im x y r,
      List.sum_toFinset _ hnd, List.toFinset_card_of_nodup hnd]
    simp [hempty]

theorem circ_scale_collapse (x y r : ℚ) (im : Image) (sf : ℚ) :
    circ x y r im sf = circ (x * sf) (y * sf) (r * sf) im 1 := by
  simp [circ, mul_one]

/-- Claim C10: the objective minimized inside `fCenter` rescales trial
coordinates by the fixed constant 20 (the default scale factor of `circ`),
not by `fCenter`'s own scale factor argument: the objective evaluated at the
scaled initial guess equals the unscaled contour cost evaluated at
`(20/scalefactor) * (xg, yg, rg)`, and the divide-then-multiply coordinate
round-trip is the identity exactly when the scale factor is 20. -/
theorem fCenterObjective_fixed_twenty (im : Image) (xg yg rg scalefactor : ℚ) :
    fCenterObjective im (xg / scalefactor, yg / scalefactor, rg / scalefactor)
        = circ (20 / scalefactor * xg) (20 / scalefactor * yg)
            (20 / scalefactor * rg) im 1
      ∧ ∀ g : ℚ, g ≠ 0 → (g / scalefactor * 20 = g ↔ scalefactor = 20) := by
  constructor
  · rw [fCenterObjective, circ_scale_collapse]
    rw [show xg / scalefactor * 20 = 20 / scalefactor * xg from by ring,
      show yg / scalefactor * 20 = 20 / scalefactor * yg from by ring,
      show rg / scalefactor * 20 = 20 / scalefactor * rg from by ring]
  · intro g hg
    constructor
    · intro h
      by_cases hs : scalefactor = 0
      · rw [hs, div_zero, zero_mul] at h
        exact absurd h.symm hg
      · rw [div_mul_eq_mul_div, div_eq_iff hs] at h
        have h20 : g * 20 = g * scalefactor := by linarith
        exact (mul_left_cancel₀ hg h20).symm
    · intro h
      rw [h]
      rw [div_mul_cancel₀]
      norm_num

/-- Witness for claim C10, at the one-pixel image, unit guesses and the
default scale factor 20. -/
theorem fCenterObjective_fixed_twenty_witness :
    (1 : ℚ) ≠ 0 ∧
      fCenterObjective imTiny (1 / 20, 1 / 20, 1 / 20)
          = circ (20 / 20 * 1) (20 / 20 * 1) (20 / 20 * 1) imTiny 1 ∧
      ((1 : ℚ) / 20 * 20 = 1 ↔ (20 : ℚ) = 20) :=
  ⟨one_ne_zero, (fCenterObjective_fixed_twenty imTiny 1 1 1 20).1,
    (fCenterObjective_fixed_twenty imTiny 1 1 1 20).2 1 one_ne_zero⟩

/-- Claim C2: for every optimizer behaviour, image, initial guess and scale
factor, the radius component returned by `fCenter` is exactly the original
radius guess `rg`, while the two center components are the optimizer's output
rescaled; the optimizer's radius output is discarded. -/
theorem fCenter_radius_override
    (minimize : ((ℚ × ℚ × ℚ) → Option ℚ) → (ℚ × ℚ × ℚ) → ℚ × ℚ × ℚ)
    (xg yg rg : ℚ) (im : Image) (scalefactor : ℚ) :
    (fCenter minimize xg yg rg im scalefactor).2.2 = rg ∧
      (fCenter minimize xg yg rg im scalefactor).1 =
        (minimize (fCenterObjective im)
          (xg / scalefactor, yg / scalefactor, rg / scalefactor)).1 * scalefactor ∧
      (fCenter minimize xg yg rg im scalefactor).2.1 =
        (minimize (fCenterObjective im)
          (xg / scalefactor, yg / scalefactor, rg / scalefactor)).2.1 * scalefactor :=
  ⟨rfl, rfl, rfl⟩

/-- The floor of the square root of a natural number, computed by counting the
naturals `m ≤ n` with `m * m ≤ n` (these are exactly `0, ..., ⌊√n⌋`). -/
def floorSqrtNat (n : ℕ) : ℕ :=
  ((List.range (n + 1)).filter fun m => decide (m * m ≤ n)).length - 1

/-- Rounding of `√q` to the nearest natural number with ties to even: the
exact value of `numpy.around(numpy.sqrt(q), decimals=0)` for a nonnegative
rational squared distance `q` (`core.py`, line 120).  With `s = ⌊√q⌋`, the
round is `s + 1` when `√q > s + 1/2`, i.e. `4q > (2s+1)^2`; a tie
`4q = (2s+1)^2` goes to the even neighbour. -/
def roundSqrt (q : ℚ) : ℕ :=
  let s := floorSqrtNat ⌊q⌋₊
  if ((2 * s + 1 : ℕ) : ℚ) ^ 2 < 4 * q then s + 1
  else if 4 * q = ((2 * s + 1 : ℕ) : ℚ) ^ 2 then (if s % 2 = 0 then s else s + 1)
  else s

/-- The value `linspace(0, N, N)[k] = k * N / (N - 1)` of the coordinate grid used by
`radialAverage` (`core.py`, lines 115-116; for `N = 1` the single grid point
is `0`, matching the division-by-zero convention of `ℚ`). -/
def lin0 (N k : ℕ) : ℚ := (k : ℚ) * (N : ℚ) / ((N : ℚ) - 1)

/-- The rounded radial position `R[i, j]` of pixel `p = (i, j)` (`core.py`,
line 120): the meshgrid pairs the x-coordinate `lin0 N j` with columns and
the center component `xc`, and the y-coordinate `lin0 N i` with rows and
`yc`. -/
def Rval (N : ℕ) (xc yc : ℚ) (p : ℕ × ℕ) : ℕ :=
  roundSqrt ((lin0 N p.2 - xc) ^ 2 + (lin0 N p.1 - yc) ^ 2)

/-- Sorted duplicate-free insertion, the building block of `n.unique`. -/
def insertUnique (r : ℕ) : List ℕ → List ℕ
  | [] => [r]
  | a :: as =>
    if r < a then r :: a :: as else if r = a then a :: as else a :: insertUnique r as

/-- Embedding of `n.unique`: the sorted list of distinct values of a list. -/
def uniqueSorted (l : List ℕ) : List ℕ := l.foldr insertUnique []

/-- The bins `unique_radii = n.unique(radius)` over the whole flattened image
(`core.py`, line 131). -/
def uniqueRadii (N : ℕ) (xc yc : ℚ) : List ℕ :=
  uniqueSorted ((pixGrid N).map (Rval N xc yc))

/-- The update `arr[ind] += v` where `ind = n.where(unique_radii == r)`: one in-place
increment of an accumulation array at the bins matching `r`
(`core.py`, lines 153-156). -/
def bump (urs : List ℕ) (arr : List ℚ) (r : ℕ) (v : ℚ) : List ℚ :=
  (urs.zip arr).map fun q => if q.1 = r then q.2 + v else q.2

/-- Embedding of `radialAverage(image, center)` from `core.py`: radial positions are
rounded meshgrid distances to `(xc, yc)`; the accumulation array starts at
zeros and the bin-count array at ones (line 133); the loop over
`n.ndenumerate(image)` skips every pixel with `i < center[0]` (line 148, the
comparison is against `xc`, the first component of the center) and increments
the accumulation and the count of the matching bin; the result pairs the
sorted unique radii with `accumulation / bincount`. -/
def radialAverage (im : Image) (xc yc : ℚ) : List ℕ × List ℚ :=
  let N := im.size
  let urs := uniqueRadii N xc yc
  let st := (pixGrid N).foldl
    (fun st p =>
      if (p.1 : ℚ) < xc then st
      else (bump urs st.1 (Rval N xc yc p) (im.pixel p.1 p.2),
            bump urs st.2 (Rval N xc yc p) 1))
    (urs.map fun _ => (0 : ℚ), urs.map fun _ => (1 : ℚ))
  (urs, (st.1.zip st.2).map fun q => q.1 / q.2)

/-- The pixels contributing to the radius-`r` bin: the grid pixels that pass
the loop's skip test (`i < center[0]` skips, so `¬ (i < xc)` contributes) and
whose rounded radial position equals `r`. -/
def contribPixels (im : Image) (xc yc : ℚ) (r : ℕ) : List (ℕ × ℕ) :=
  ((pixGrid im.size).filter fun p => decide (¬ ((p.1 : ℚ) < xc))).filter
    fun p => decide (Rval im.size xc yc p = r)

/-- The sum of the intensities of the pixels contributing to bin `r`. -/
def binSum (im : Image) (xc yc : ℚ) (r : ℕ) : ℚ :=
  ((contribPixels im xc yc r).map fun p => im.pixel p.1 p.2).sum

/-- The number of pixels contributing to bin `r`. -/
def binCnt (im : Image) (xc yc : ℚ) (r : ℕ) : ℕ :=
  (contribPixels im xc yc r).length

theorem insertUnique_mem (r b : ℕ) (l : List ℕ) :
    b ∈ insertUnique r l ↔ b = r ∨ b ∈ l := by
  induction l with
  | nil => simp [insertUnique]
  | cons a as ih =>
    by_cases h1 : r < a
    · simp [insertUnique, h1]
    · by_cases h2 : r = a
      · subst h2
        simp only [insertUnique, if_neg h1, eq_self_iff_true, if_true, List.mem_cons]
        tauto
      · simp only [insertUnique, if_neg h1, if_neg h2, List.mem_cons, ih]
        tauto

theorem insertUnique_sorted (r : ℕ) (l : List ℕ) (h : l.Sorted (· < ·)) :
    (insertUnique r l).Sorted (· < ·) := by
  induction l with
  | nil => simp [insertUnique]
  | cons a as ih =>
    rw [List.sorted_cons] at h
    obtain ⟨ha, has⟩ := h
    by_cases h1 : r < a
    · simp only [insertUnique, if_pos h1]
      refine List.sorted_cons.mpr ⟨?_, List.sorted_cons.mpr ⟨ha, has⟩⟩
      intro b hb
      rcases List.mem_cons.mp hb with rfl | hb
      · exact h1
      · exact lt_trans h1 (ha b hb)
    · by_cases h2 : r = a
      · simp only [insertUnique, if_neg h1, if_pos h2]
        exact List.sorted_cons.mpr ⟨ha, has⟩
      · have har : a < r := by omega
        simp only [insertUnique, if_neg h1, if_neg h2]
        refine List.sorted_cons.mpr ⟨?_, ih has⟩
        intro b hb
        rcases (insertUnique_mem r b as).mp hb with rfl | hb
        · exact har
        · exact ha b hb

theorem uniqueSorted_sorted (l : List ℕ) : (uniqueSorted l).Sorted (· < ·) := by
  induction l with
  | nil => simp [uniqueSorted]
  | cons a as ih => exact insertUnique_sorted a _ ih

theorem foldl_skip_filter {α β : Type} (c : α → Prop) [DecidablePred c]
    (f : β → α → β) (ps : List α) (b : β) :
    ps.foldl (fun st p => if c p then st else f st p) b
      = ((ps.filter fun p => decide (¬ c p)).foldl f b) := by
  induction ps generalizing b with
  | nil => rfl
  | cons p ps ih =>
    by_cases h : c p
    · rw [List.foldl_cons, if_pos h, List.filter_cons, if_neg (by simp [h]), ih]
    · rw [List.foldl_cons, if_neg h, List.filter_cons, if_pos (by simp [h]),
        List.foldl_cons, ih]

theorem foldl_pair_split {α β γ : Type} (f : β → α → β) (g : γ → α → γ)
    (ps : List α) (b : β) (c : γ) :
    ps.foldl (fun st p => (f st.1 p, g st.2 p)) (b, c)
      = (ps.foldl f b, ps.foldl g c) := by
  induction ps generalizing b c with
  | nil => rfl
  | cons p ps ih => simpa using ih (f b p) (g c p)

theorem bump_length (urs : List ℕ) (arr : List ℚ) (r : ℕ) (v : ℚ) :
    (bump urs arr r v).length = min urs.length arr.length := by
  simp [bump]

theorem bump_getD (urs : List ℕ) (arr : List ℚ) (r : ℕ) (v : ℚ) (k : ℕ)
    (ha : arr.length = urs.length) (hk : k < urs.length) :
    (bump urs arr r v).getD k 0
      = if urs.getD k 0 = r then arr.getD k 0 + v else arr.getD k 0 := by
  induction urs generalizing arr k with
  | nil => exact absurd hk (by simp)
  | cons u us ih =>
    cases arr with
    | nil => simp at ha
    | cons x xs =>
      cases k with
      | zero => simp [bump]
      | succ k =>
        have ha2 : xs.length = us.length := by simpa using ha
        have hk2 : k < us.length := by simpa using hk
        simpa [bump] using ih xs k ha2 hk2

theorem foldl_bump_length (urs : List ℕ) (rad : ℕ × ℕ → ℕ) (val : ℕ × ℕ → ℚ)
    (ps : List (ℕ × ℕ)) (arr : List ℚ) (ha : arr.length = urs.length) :
    (ps.foldl (fun a p => bump urs a (rad p) (val p)) arr).length = urs.length := by
  induction ps generalizing arr with
  | nil => simpa using ha
  | cons p ps ih =>
    rw [List.foldl_cons]
    exact ih _ (by rw [bump_length]; omega)

theorem foldl_bump_getD (urs : List ℕ) (rad : ℕ × ℕ → ℕ) (val : ℕ × ℕ → ℚ)
    (ps : List (ℕ × ℕ)) (arr : List ℚ) (k : ℕ)
    (ha : arr.length = urs.length) (hk : k < urs.length) :
    (ps.foldl (fun a p => bump urs a (rad p) (val p)) arr).getD k 0
      = arr.getD k 0
        + ((ps.filter fun p => decide (rad p = urs.getD k 0)).map val).sum := by
  induction ps generalizing arr with
  | nil => simp
  | cons p ps ih =>
    have harr2 : (bump urs arr (rad p) (val p)).length = urs.length := by
      rw [bump_length]; omega
    rw [List.foldl_cons, ih _ harr2, bump_getD urs arr _ _ k ha hk, List.filter_cons]
    by_cases h : rad p = urs.getD k 0
    · rw [if_pos h.symm, if_pos (by simpa using h), List.map_cons, List.sum_cons]
      ring
    · rw [if_neg (fun hh => h hh.symm), if_neg (by simpa using h)]

theorem zip_div_getD (a b : List ℚ) (k : ℕ) (hka : k < a.length)
    (hkb : k < b.length) :
    ((a.zip b).map fun q => q.1 / q.2).getD k 0 = a.getD k 0 / b.getD k 0 := by
  induction a generalizing b k with
  | nil => exact absurd hka (by simp)
  | cons x xs ih =>
    cases b with
    | nil => exact absurd hkb (by simp)
    | cons y ys =>
      cases k with
      | zero => simp
      | succ k =>
        have h1 : k < xs.length := by simpa using hka
        have h2 : k < ys.length := by simpa using hkb
        simpa using ih ys k h1 h2

theorem map_const_getD (l : List ℕ) (c : ℚ) (k : ℕ) (hk : k < l.length) :
    (l.map fun _ => c).getD k 0 = c := by
  induction l generalizing k with
  | nil => exact absurd hk (by simp)
  | cons x xs ih =>
    cases k with
    | zero => simp
    | succ k => simpa using ih k (by simpa using hk)

theorem map_one_sum (l : List (ℕ × ℕ)) :
    (l.map fun _ => (1 : ℚ)).sum = (l.length : ℚ) := by
  induction l with
  | nil => simp
  | cons x xs ih =>
    rw [List.map_cons, List.sum_cons, ih, List.length_cons]
    push_cast
    ring

theorem radialAverage_getD (im : Image) (xc yc : ℚ) (k : ℕ)
    (hk : k < (uniqueRadii im.size xc yc).length) :
    (radialAverage im xc yc).2.getD k 0
      = binSum im xc yc ((uniqueRadii im.size xc yc).getD k 0)
        / (1 + (binCnt im xc yc ((uniqueRadii im.size xc yc).getD k 0) : ℚ)) := by
  have hzero : ((uniqueRadii im.size xc yc).map fun _ => (0 : ℚ)).length
      = (uniqueRadii im.size xc yc).length := by simp
  have hone : ((uniqueRadii im.size xc yc).map fun _ => (1 : ℚ)).length
      = (uniqueRadii im.size xc yc).length := by simp
  simp only [radialAverage]
  rw [foldl_skip_filter (fun p : ℕ × ℕ => (p.1 : ℚ) < xc),
    foldl_pair_split
      (fun a p => bump (uniqueRadii im.size xc yc) a (Rval im.size xc yc p) (im.pixel p.1 p.2))
      (fun a p => bump (uniqueRadii im.size xc yc) a (Rval im.size xc yc p) 1)]
  rw [zip_div_getD _ _ k
    (by rw [foldl_bump_length _ _ _ _ _ hzero]; exact hk)
    (by rw [foldl_bump_length _ _ _ _ _ hone]; exact hk)]
  rw [foldl_bump_getD _ _ _ _ _ k hzero hk, foldl_bump_getD _ _ _ _ _ k hone hk]
  rw [map_const_getD _ _ k hk, map_const_getD _ _ k hk, zero_add, map_one_sum]
  rfl

/-- Claim C5: for every image, center and radius bin, the returned intensity
at that bin is the sum of the contributing pixel values divided by `1 +` the
number of contributing pixels: every bin count is pre-seeded at `1` before
accumulation, so the denominator is positive and no division by zero can
occur, even for bins that accumulate nothing. -/
theorem radialAverage_preseeded_mean (im : Image) (xc yc : ℚ) (k : ℕ)
    (hk : k < (radialAverage im xc yc).1.length) :
    (radialAverage im xc yc).2.getD k 0
        = binSum im xc yc ((radialAverage im xc yc).1.getD k 0)
          / (1 + (binCnt im xc yc ((radialAverage im xc yc).1.getD k 0) : ℚ))
      ∧ (0 : ℚ) < 1 + (binCnt im xc yc ((radialAverage im xc yc).1.getD k 0) : ℚ) := by
  refine ⟨radialAverage_getD im xc yc k hk, ?_⟩
  positivity

/-- Witness for claim C5, at the all-ones `3 × 3` image, center `(0, 0)` and
bin index `0`. -/
theorem radialAverage_preseeded_mean_witness :
    0 < (radialAverage im3 0 0).1.length ∧
      ((radialAverage im3 0 0).2.getD 0 0
          = binSum im3 0 0 ((radialAverage im3 0 0).1.getD 0 0)
            / (1 + (binCnt im3 0 0 ((radialAverage im3 0 0).1.getD 0 0) : ℚ))
        ∧ (0 : ℚ) < 1 + (binCnt im3 0 0 ((radialAverage im3 0 0).1.getD 0 0) : ℚ)) :=
  ⟨by decide, radialAverage_preseeded_mean im3 0 0 0 (by decide)⟩

/-- Claim C4 (amended): a pixel contributes its intensity to the radial
accumulation if and only if it lies on the pixel grid, its row index `i` is
not below `xc` — the code's skip test `i < center[0]` compares the row index
with the FIRST component of the center, the x-coordinate that the distance
formula pairs with columns, not with the center's row coordinate `yc` — and
its rounded meshgrid distance to the center equals the bin's radius; each
bin's intensity is the pre-seeded mean over exactly that pixel set. -/
theorem radialAverage_contrib_condition (im : Image) (xc yc : ℚ) (k : ℕ)
    (hk : k < (radialAverage im xc yc).1.length) :
    (∀ p : ℕ × ℕ,
        p ∈ contribPixels im xc yc ((radialAverage im xc yc).1.getD k 0)
          ↔ p.1 < im.size ∧ p.2 < im.size ∧ ¬ ((p.1 : ℚ) < xc)
              ∧ Rval im.size xc yc p = (radialAverage im xc yc).1.getD k 0)
      ∧ (radialAverage im xc yc).2.getD k 0
          = binSum im xc yc ((radialAverage im xc yc).1.getD k 0)
            / (1 + (binCnt im xc yc ((radialAverage im xc yc).1.getD k 0) : ℚ)) := by
  refine ⟨?_, radialAverage_getD im xc yc k hk⟩
  intro p
  simp only [contribPixels, List.mem_filter, mem_pixGrid, decide_eq_true_eq]
  tauto

/-- Witness for claim C4 (amended), at the all-ones `3 × 3` image, center
`(1, 2)` and bin index `0`, evaluated at pixel `(2, 0)`. -/
theorem radialAverage_contrib_condition_witness :
    0 < (radialAverage im3 1 2).1.length ∧
      (((2, 0) : ℕ × ℕ) ∈ contribPixels im3 1 2 ((radialAverage im3 1 2).1.getD 0 0)
          ↔ 2 < im3.size ∧ 0 < im3.size ∧ ¬ ((2 : ℚ) < 1)
              ∧ Rval im3.size 1 2 (2, 0) = (radialAverage im3 1 2).1.getD 0 0) ∧
      (radialAverage im3 1 2).2.getD 0 0
        = binSum im3 1 2 ((radialAverage im3 1 2).1.getD 0 0)
          / (1 + (binCnt im3 1 2 ((radialAverage im3 1 2).1.getD 0 0) : ℚ)) :=
  ⟨by decide, ((radialAverage_contrib_condition im3 1 2 0 (by decide)).1 (2, 0)),
    (radialAverage_contrib_condition im3 1 2 0 (by decide)).2⟩

/-- The bin mean asserted by claim C4 as stated: contributions gathered from
the pixels whose row index is at or below the center's row coordinate `yc`
(together with the claim's binning by rounded distance), with the pre-seeded
denominator. -/
def rowBinMean (im : Image) (xc yc : ℚ) (r : ℕ) : ℚ :=
  let ps := ((pixGrid im.size).filter fun p => decide (yc ≤ (p.1 : ℚ))).filter
    fun p => decide (Rval im.size xc yc p = r)
  ((ps.map fun p => im.pixel p.1 p.2).sum) / (1 + (ps.length : ℚ))

/-- Counterexample to claim C4 as stated, at the all-ones `3 × 3` image `im3`
and center `(xc, yc) = (0, 3)`: the first radial bin of the returned profile
holds `1/2` — pixel `(2, 0)` contributed because the code's skip test compares
rows with `xc = 0` — while gathering contributions from the rows at or below
the center's row coordinate `yc = 3` would leave the bin empty, with
pre-seeded mean `0`. -/
theorem radialAverage_row_counterexample :
    (radialAverage im3 0 3).2.getD 0 0 = 1 / 2 ∧
      rowBinMean im3 0 3 ((radialAverage im3 0 3).1.getD 0 0) = 0 ∧
      (radialAverage im3 0 3).2.getD 0 0
        ≠ rowBinMean im3 0 3 ((radialAverage im3 0 3).1.getD 0 0) := by
  refine ⟨by decide, by decide, by decide⟩

/-- Claim C8: for every image and center, the radius sequence of the returned
profile is strictly increasing (hence its bins are unique and ascending), and
it has exactly the same length as the intensity sequence. -/
theorem radialAverage_profile_shape (im : Image) (xc yc : ℚ) :
    ((radialAverage im xc yc).1).Sorted (· < ·)
      ∧ (radialAverage im xc yc).1.length = (radialAverage im xc yc).2.length := by
  constructor
  · exact uniqueSorted_sorted _
  · have hzero : ((uniqueRadii im.size xc yc).map fun _ => (0 : ℚ)).length
        = (uniqueRadii im.size xc yc).length := by simp
    have hone : ((uniqueRadii im.size xc yc).map fun _ => (1 : ℚ)).length
        = (uniqueRadii im.size xc yc).length := by simp
    simp only [radialAverage]
    rw [foldl_skip_filter (fun p : ℕ × ℕ => (p.1 : ℚ) < xc),
      foldl_pair_split
        (fun a p => bump (uniqueRadii im.size xc yc) a (Rval im.size xc yc p) (im.pixel p.1 p.2))
        (fun a p => bump (uniqueRadii im.size xc yc) a (Rval im.size xc yc p) 1)]
    simp only [List.length_map, List.length_zip]
    rw [foldl_bump_length _ _ _ _ _ hzero, foldl_bump_length _ _ _ _ _ hone]
    omega

/-- Claim C9: `radialAverage` is deterministic — it is a pure function of the
image and the center, so two calls on equal inputs return identical outputs,
with no dependence on hidden or shared state. -/
theorem radialAverage_deterministic (im im' : Image) (xc yc xc' yc' : ℚ)
    (him : im = im') (hx : xc = xc') (hy : yc = yc') :
    radialAverage im xc yc = radialAverage im' xc' yc' := by
  subst him hx hy
  rfl

/-- Witness for claim C9, at the all-ones `3 × 3` image and center `(0, 0)`. -/
theorem radialAverage_deterministic_witness :
    im3 = im3 ∧ radialAverage im3 0 0 = radialAverage im3 0 0 :=
  ⟨rfl, radialAverage_deterministic im3 im3 0 0 0 0 rfl rfl rfl⟩

/-- Numpy integer indexing of a 1-D array: a negative index `t` with
`-len ≤ t` wraps around to the element at `len + t`; an index outside
`[-len, len)` raises `IndexError`, modelled as `none`. -/
def npIndex (xs : List ℚ) (t : ℤ) : Option ℚ :=
  let u := if t < 0 then t + xs.length else t
  if 0 ≤ u then xs[u.toNat]? else none

/-- The index `ind = n.argmin(n.abs(xdata - feature))`: the first index of `xs` whose
value is nearest to `c` (`core.py`, line 185). -/
def argminAbs (xs : List ℚ) (c : ℚ) : ℕ :=
  match xs with
  | [] => 0
  | x :: rest =>
    (rest.enum.foldl
      (fun st q => if |q.2 - c| < st.2 then (q.1 + 1, |q.2 - c|) else st)
      ((0 : ℕ), |x - c|)).1

/-- The window `chunk_ind = n.arange(ind - chunk_size, ind + chunk_size + 1)`
(`core.py`, line 186). -/
def chunkIdx (ind : ℕ) (cs : ℕ) : List ℤ :=
  (List.range (2 * cs + 1)).map fun t : ℕ => (ind : ℤ) - cs + t

/-- The extraction `xdata[chunk_ind]`: element-wise numpy indexing by a whole index array,
failing (`IndexError`) as soon as one index is out of range. -/
def gather (xs : List ℚ) : List ℤ → Option (List ℚ)
  | [] => some []
  | t :: ts =>
    match npIndex xs t with
    | none => none
    | some v =>
      match gather xs ts with
      | none => none
      | some vs => some (v :: vs)

/-- The chunk-extraction loop of `inelasticBGSubstract` (`core.py`, lines
183-188): for each feature x-position, find the nearest index of `xdata` and
extract the symmetric windows of `xdata` and `ydata` of half-width
`chunk_size` around it; any indexing failure aborts the whole call. -/
def extractChunks (xdata ydata : List ℚ) (xfeatures : List ℚ) (chunk_size : ℕ) :
    Option (List (List ℚ × List ℚ)) :=
  match xfeatures with
  | [] => some []
  | f :: fs =>
    match gather xdata (chunkIdx (argminAbs xdata f) chunk_size) with
    | none => none
    | some xch =>
      match gather ydata (chunkIdx (argminAbs xdata f) chunk_size) with
      | none => none
      | some ych =>
        match extractChunks xdata ydata fs chunk_size with
        | none => none
        | some rest => some ((xch, ych) :: rest)

/-- One-dimensional linear interpolation with flat extrapolation over a list
of `(xp, fp)` pairs: the semantics of `numpy.interp` for increasing `xp`
(`core.py`, line 202). -/
def interp (x : ℚ) : List (ℚ × ℚ) → ℚ
  | [] => 0
  | [(_, f0)] => f0
  | (x0, f0) :: (x1, f1) :: rest =>
    if x ≤ x0 then f0
    else if x < x1 then f0 + (f1 - f0) * (x - x0) / (x1 - x0)
    else interp x ((x1, f1) :: rest)

/-- Embedding of `inelasticBGSubstract(xdata, ydata, points, chunk_size)` from `core.py`.
The nonlinear least-squares routine `opt.curve_fit(pseudoVoigt, ...)` is an
external collaborator, modelled as the explicit parameter `fit` returning a
chunk's fitted constant term (`opt_parameters[-1]`).  Only the x-positions of
the feature points are used; each chunk contributes
`constant * n.ones_like(xchunk)` to the flattened background arrays, which
are then interpolated over `xdata`. -/
def inelasticBGSubstract (fit : List ℚ → List ℚ → ℚ) (xdata ydata : List ℚ)
    (points : List (ℚ × ℚ)) (chunk_size : ℕ) : Option (List ℚ × List ℚ) :=
  let xfeatures := points.map Prod.fst
  match extractChunks xdata ydata xfeatures chunk_size with
  | none => none
  | some chunks =>
    let constants := chunks.map fun ch => List.replicate ch.1.length (fit ch.1 ch.2)
    let constant_background := constants.flatten
    let x_background := (chunks.map Prod.fst).flatten
    some (xdata, xdata.map fun x => interp x (x_background.zip constant_background))

theorem npIndex_ge_none (xs : List ℚ) (t : ℤ) (h : (xs.length : ℤ) ≤ t) :
    npIndex xs t = none := by
  rw [npIndex]
  have h0 : ¬ t < 0 := by omega
  simp only [if_neg h0]
  rw [if_pos (by omega : (0 : ℤ) ≤ t)]
  exact List.getElem?_eq_none (by omega)

theorem npIndex_low_none (xs : List ℚ) (t : ℤ) (h : t + (xs.length : ℤ) < 0) :
    npIndex xs t = none := by
  rw [npIndex]
  have h0 : t < 0 := by omega
  simp only [if_pos h0]
  rw [if_neg (by omega : ¬ (0 : ℤ) ≤ t + (xs.length : ℤ))]

theorem mem_chunkIdx_of (ind cs a : ℕ) (ha : a < 2 * cs + 1) :
    ((ind : ℤ) - cs + a) ∈ chunkIdx ind cs :=
  List.mem_map_of_mem _ (List.mem_range.mpr ha)

theorem gather_none (xs : List ℚ) (idxs : List ℤ) (t : ℤ) (ht : t ∈ idxs)
    (hn : npIndex xs t = none) : gather xs idxs = none := by
  induction idxs with
  | nil => simp at ht
  | cons s ss ih =>
    rcases List.mem_cons.mp ht with rfl | hmem
    · simp [gather, hn]
    · cases hx : npIndex xs s <;> simp [gather, hx, ih hmem]

theorem extractChunks_none (xdata ydata : List ℚ) (features : List ℚ)
    (chunk_size : ℕ) (f : ℚ) (hf : f ∈ features)
    (hg : gather xdata (chunkIdx (argminAbs xdata f) chunk_size) = none) :
    extractChunks xdata ydata features chunk_size = none := by
  induction features with
  | nil => simp at hf
  | cons g gs ih =>
    rcases List.mem_cons.mp hf with rfl | hmem
    · simp [extractChunks, hg]
    · cases h1 : gather xdata (chunkIdx (argminAbs xdata g) chunk_size) <;>
        cases h2 : gather ydata (chunkIdx (argminAbs xdata g) chunk_size) <;>
          simp [extractChunks, h1, h2, ih hmem]

/-- Claim C6 (amended): if some feature's window reaches past the right end
of the data (`ind + chunk_size ≥ len`), or so far past the left end that even
numpy's wrap-around cannot absorb it (`ind + len < chunk_size`), then
`inelasticBGSubstract` fails with an `IndexError` instead of returning a
background.  A window that merely overhangs the left edge within `len`
wraps around silently and does not fail (see the counterexample). -/
theorem inelasticBG_bounds_failure (fit : List ℚ → List ℚ → ℚ)
    (xdata ydata : List ℚ) (points : List (ℚ × ℚ)) (chunk_size : ℕ)
    (h : ∃ q ∈ points, xdata.length ≤ argminAbs xdata q.1 + chunk_size
        ∨ argminAbs xdata q.1 + xdata.length < chunk_size) :
    inelasticBGSubstract fit xdata ydata points chunk_size = none := by
  obtain ⟨q, hq, hcase⟩ := h
  have hf : q.1 ∈ points.map Prod.fst := List.mem_map_of_mem _ hq
  have hbad : ∃ t ∈ chunkIdx (argminAbs xdata q.1) chunk_size,
      npIndex xdata t = none := by
    rcases hcase with hhi | hlo
    · have hmem := mem_chunkIdx_of (argminAbs xdata q.1) chunk_size
        (2 * chunk_size) (by omega)
      have hnone : npIndex xdata
          ((argminAbs xdata q.1 : ℤ) - chunk_size + ((2 * chunk_size : ℕ) : ℤ))
            = none := by
        apply npIndex_ge_none
        push_cast
        omega
      exact ⟨_, hmem, hnone⟩
    · have hmem := mem_chunkIdx_of (argminAbs xdata q.1) chunk_size 0 (by omega)
      have hnone : npIndex xdata
          ((argminAbs xdata q.1 : ℤ) - chunk_size + ((0 : ℕ) : ℤ)) = none := by
        apply npIndex_low_none
        push_cast
        omega
      exact ⟨_, hmem, hnone⟩
  obtain ⟨t, ht, hn⟩ := hbad
  have hEC := extractChunks_none xdata ydata (points.map Prod.fst) chunk_size q.1 hf
    (gather_none xdata _ t ht hn)
  simp [inelasticBGSubstract, hEC]

/-- Witness for claim C6 (amended): with `xdata = ydata = [0, 1, 2]` and
`chunk_size = 5`, the single feature's window reaches past the right end of
the data and the call fails. -/
theorem inelasticBG_bounds_failure_witness :
    (∃ q ∈ [((0 : ℚ), (0 : ℚ))],
        ([(0 : ℚ), 1, 2] : List ℚ).length ≤ argminAbs [0, 1, 2] q.1 + 5
          ∨ argminAbs [0, 1, 2] q.1 + ([(0 : ℚ), 1, 2] : List ℚ).length < 5) ∧
      inelasticBGSubstract (fun xch ych => 0) [0, 1, 2] [0, 1, 2] [(0, 0)] 5 = none :=
  ⟨by decide, inelasticBG_bounds_failure _ _ _ _ 5 (by decide)⟩

theorem sorted_head_le_getLast (l : List ℚ) (a b : ℚ) (hs : l.Sorted (· < ·))
    (hh : l.head? = some a) (hl : l.getLast? = some b) : a ≤ b := by
  cases l with
  | nil => simp at hh
  | cons x r =>
    have hxa : x = a := by simpa using hh
    subst hxa
    cases r with
    | nil =>
      have : x = b := by simpa using hl
      exact le_of_eq this
    | cons y r2 =>
      rw [List.getLast?_cons_cons] at hl
      have hbmem : b ∈ y :: r2 := List.mem_of_getLast?_eq_some hl
      exact le_of_lt ((List.sorted_cons.mp hs).1 b hbmem)

theorem interp_const_block (c x : ℚ) (l : List ℚ) (hne : l ≠ []) :
    interp x (l.map fun t => (t, c)) = c := by
  induction l with
  | nil => simp at hne
  | cons a as ih =>
    cases as with
    | nil => simp [interp]
    | cons b bs =>
      simp only [List.map_cons]
      rw [interp]
      by_cases h1 : x ≤ a
      · rw [if_pos h1]
      · rw [if_neg h1]
        by_cases h2 : x < b
        · rw [if_pos h2]; ring
        · rw [if_neg h2]
          simpa using ih (by simp)

theorem interp_left_block (c1 c2 a x : ℚ) (xs1 xs2 : List ℚ)
    (hs : (xs1 ++ xs2).Sorted (· < ·)) (ha : xs1.getLast? = some a) (hx : x ≤ a) :
    interp x ((xs1.map fun t => (t, c1)) ++ (xs2.map fun t => (t, c2))) = c1 := by
  induction xs1 with
  | nil => simp at ha
  | cons a1 rest ih =>
    cases rest with
    | nil =>
      have haa : a1 = a := by simpa using ha
      subst haa
      cases xs2 with
      | nil => simp [interp]
      | cons b bs =>
        simp only [List.map_cons, List.map_nil, List.nil_append, List.cons_append]
        rw [interp, if_pos hx]
    | cons a2 r2 =>
      have ha2 : (a2 :: r2).getLast? = some a := by
        rw [← List.getLast?_cons_cons (a := a1)]; exact ha
      have hs2 : ((a2 :: r2) ++ xs2).Sorted (· < ·) :=
        (List.sorted_cons.mp (by simpa using hs)).2
      simp only [List.map_cons, List.cons_append]
      rw [interp]
      by_cases h1 : x ≤ a1
      · rw [if_pos h1]
      · rw [if_neg h1]
        by_cases h2 : x < a2
        · rw [if_pos h2]; ring
        · rw [if_neg h2]
          simpa using ih hs2 ha2

theorem interp_right_block (c1 c2 b x : ℚ) (xs1 xs2 : List ℚ)
    (hs : (xs1 ++ xs2).Sorted (· < ·)) (hb : xs2.head? = some b) (hx : b ≤ x) :
    interp x ((xs1.map fun t => (t, c1)) ++ (xs2.map fun t => (t, c2))) = c2 := by
  have hb_mem : b ∈ xs2 := by
    cases xs2 with
    | nil => simp at hb
    | cons b0 bs =>
      have : b0 = b := by simpa using hb
      subst this
      exact List.mem_cons_self b0 bs
  induction xs1 with
  | nil =>
    simp only [List.map_nil, List.nil_append]
    apply interp_const_block
    intro hc
    rw [hc] at hb
    simp at hb
  | cons a1 rest ih =>
    have h_a1_lt : a1 < b :=
      (List.sorted_cons.mp (by simpa using hs)).1 b (List.mem_append_right _ hb_mem)
    have hs2 : (rest ++ xs2).Sorted (· < ·) :=
      (List.sorted_cons.mp (by simpa using hs)).2
    cases rest with
    | nil =>
      cases xs2 with
      | nil => simp at hb
      | cons b0 bs =>
        have hbb : b0 = b := by simpa using hb
        subst hbb
        simp only [List.map_cons, List.map_nil, List.nil_append, List.cons_append]
        rw [interp, if_neg (not_le.mpr (lt_of_lt_of_le h_a1_lt hx)),
          if_neg (not_lt.mpr hx)]
        simpa using interp_const_block c2 x (b0 :: bs) (by simp)
    | cons a2 r2 =>
      have h_a2_lt_b : a2 < b := by
        have hp := List.sorted_cons.mp
          (show (a2 :: (r2 ++ xs2)).Sorted (· < ·) by simpa using hs2)
        exact hp.1 b (List.mem_append_right _ hb_mem)
      simp only [List.map_cons, List.cons_append]
      rw [interp, if_neg (not_le.mpr (lt_of_lt_of_le h_a1_lt hx)),
        if_neg (not_lt.mpr (le_trans (le_of_lt h_a2_lt_b) hx))]
      simpa using ih hs2

theorem interp_mid_block (c1 c2 a b x : ℚ) (xs1 xs2 : List ℚ)
    (hs : (xs1 ++ xs2).Sorted (· < ·))
    (ha : xs1.getLast? = some a) (hb : xs2.head? = some b)
    (hax : a < x) (hxb : x < b) :
    interp x ((xs1.map fun t => (t, c1)) ++ (xs2.map fun t => (t, c2)))
      = c1 + (c2 - c1) * (x - a) / (b - a) := by
  induction xs1 with
  | nil => simp at ha
  | cons a1 rest ih =>
    cases rest with
    | nil =>
      have haa : a1 = a := by simpa using ha
      subst haa
      cases xs2 with
      | nil => simp at hb
      | cons b0 bs =>
        have hbb : b0 = b := by simpa using hb
        subst hbb
        simp only [List.map_cons, List.map_nil, List.nil_append, List.cons_append]
        rw [interp, if_neg (not_le.mpr hax), if_pos hxb]
    | cons a2 r2 =>
      have ha2 : (a2 :: r2).getLast? = some a := by
        rw [← List.getLast?_cons_cons (a := a1)]; exact ha
      have hs2 : ((a2 :: r2) ++ xs2).Sorted (· < ·) :=
        (List.sorted_cons.mp (by simpa using hs)).2
      have ha_mem : a ∈ (a2 :: r2) := List.mem_of_getLast?_eq_some ha2
      have h_a1_lt_x : a1 < x :=
        lt_trans ((List.sorted_cons.mp (by simpa using hs)).1 a
          (List.mem_append_left _ ha_mem)) hax
      have h_a2_le_a : a2 ≤ a :=
        sorted_head_le_getLast (a2 :: r2) a2 a
          ((List.pairwise_append.mp hs2).1) rfl ha2
      simp only [List.map_cons, List.cons_append]
      rw [interp, if_neg (not_le.mpr h_a1_lt_x),
        if_neg (not_lt.mpr (le_trans h_a2_le_a (le_of_lt hax)))]
      simpa using ih hs2 ha2

/-- The background asserted by the specification's two-feature round-trip:
`c1` at or below `a` (the top of the first chunk's range), `c2` at or above
`b` (the bottom of the second chunk's range), and a linear ramp strictly in
between. -/
def rampBackground (a b c1 c2 x : ℚ) : ℚ :=
  if x ≤ a then c1 else if b ≤ x then c2 else c1 + (c2 - c1) * (x - a) / (b - a)

theorem interp_two_blocks (xs1 xs2 : List ℚ) (c1 c2 a b x : ℚ)
    (hs : (xs1 ++ xs2).Sorted (· < ·))
    (ha : xs1.getLast? = some a) (hb : xs2.head? = some b) :
    interp x ((xs1.map fun t => (t, c1)) ++ (xs2.map fun t => (t, c2)))
      = rampBackground a b c1 c2 x := by
  rw [rampBackground]
  by_cases h1 : x ≤ a
  · rw [if_pos h1]
    exact interp_left_block c1 c2 a x xs1 xs2 hs ha h1
  · rw [if_neg h1]
    by_cases h2 : b ≤ x
    · rw [if_pos h2]
      exact interp_right_block c1 c2 b x xs1 xs2 hs hb h2
    · rw [if_neg h2]
      exact interp_mid_block c1 c2 a b x xs1 xs2 hs ha hb
        (lt_of_not_le h1) (lt_of_not_le h2)

theorem zip_replicate_map (c : ℚ) (xs : List ℚ) :
    xs.zip (List.replicate xs.length c) = xs.map fun t => (t, c) := by
  induction xs with
  | nil => rfl
  | cons a as ih => simp [List.replicate_succ, ih]

theorem zip_two_blocks (xs1 xs2 : List ℚ) (c1 c2 : ℚ) :
    (xs1 ++ xs2).zip
        (List.replicate xs1.length c1 ++ List.replicate xs2.length c2)
      = (xs1.map fun t => (t, c1)) ++ (xs2.map fun t => (t, c2)) := by
  induction xs1 with
  | nil => simpa using zip_replicate_map c2 xs2
  | cons a as ih => simpa [List.replicate_succ] using ih

/-- Claim C7: round-trip of the background interpolation.  When the chunk
extraction produced exactly two chunks whose flattened x-grid is strictly
increasing, and the fitter returned constants `c1` and `c2` for them, the
returned background equals `c1` at every `xdata` value at or below the first
chunk's range (whose top is `a`), `c2` at every value at or above the second
chunk's range (whose bottom is `b`), and a linear ramp strictly in between —
flat extrapolation outside the fitted range. -/
theorem inelasticBG_two_feature_roundtrip (fit : List ℚ → List ℚ → ℚ)
    (xdata ydata : List ℚ) (points : List (ℚ × ℚ)) (chunk_size : ℕ)
    (xs1 ys1 xs2 ys2 : List ℚ) (c1 c2 a b : ℚ)
    (hch : extractChunks xdata ydata (points.map Prod.fst) chunk_size
      = some [(xs1, ys1), (xs2, ys2)])
    (h1 : fit xs1 ys1 = c1) (h2 : fit xs2 ys2 = c2)
    (hs : (xs1 ++ xs2).Sorted (· < ·))
    (ha : xs1.getLast? = some a) (hb : xs2.head? = some b) :
    inelasticBGSubstract fit xdata ydata points chunk_size
      = some (xdata, xdata.map (rampBackground a b c1 c2)) := by
  have hfun : (fun x => interp x
      (((xs1 ++ (xs2 ++ [])).zip
        (List.replicate xs1.length (fit xs1 ys1)
          ++ (List.replicate xs2.length (fit xs2 ys2) ++ [])))))
      = rampBackground a b c1 c2 := by
    funext x
    rw [List.append_nil, List.append_nil, h1, h2, zip_two_blocks]
    exact interp_two_blocks xs1 xs2 c1 c2 a b x hs ha hb
  simp only [inelasticBGSubstract, hch, List.map_cons, List.map_nil,
    List.flatten_cons, List.flatten_nil]
  rw [hfun]

/-- Witness for claim C7: the curve `xdata = ydata viewpoints [0..7]` with two
features nearest indices `1` and `6`, half-width `1`, and a fitter returning
the first x-value of a chunk, so that `c1 = 0`, `c2 = 5`, `a = 2`, `b = 5`. -/
theorem inelasticBG_two_feature_roundtrip_witness :
    extractChunks ([0, 1, 2, 3, 4, 5, 6, 7] : List ℚ) [0, 0, 0, 0, 0, 0, 0, 0]
        (([((1 : ℚ), (0 : ℚ)), (6, 0)]).map Prod.fst) 1
      = some [([0, 1, 2], [0, 0, 0]), ([5, 6, 7], [0, 0, 0])] ∧
    (([0, 1, 2] : List ℚ) ++ [5, 6, 7]).Sorted (· < ·) ∧
    inelasticBGSubstract (fun xch ych => xch.headD 0) [0, 1, 2, 3, 4, 5, 6, 7]
        [0, 0, 0, 0, 0, 0, 0, 0] [(1, 0), (6, 0)] 1
      = some ([0, 1, 2, 3, 4, 5, 6, 7],
          ([0, 1, 2, 3, 4, 5, 6, 7] : List ℚ).map (rampBackground 2 5 0 5)) :=
  ⟨by decide, by decide,
    inelasticBG_two_feature_roundtrip (fun xch ych => xch.headD 0)
      [0, 1, 2, 3, 4, 5, 6, 7] [0, 0, 0, 0, 0, 0, 0, 0] [(1, 0), (6, 0)] 1
      [0, 1, 2] [0, 0, 0] [5, 6, 7] [0, 0, 0] 0 5 2 5
      (by decide) (by decide) (by decide) (by decide) (by decide) (by decide)⟩

/-- Counterexample to claim C6 as stated: with `xdata = ydata = [0, 1, 2, 3, 4]`,
a single feature at `0` and `chunk_size = 1`, the feature's window
`[-1, 0, 1]` extends past the left bound of the curve, yet the function
returns a background — numpy's negative indexing wraps index `-1` to the last
element — instead of failing with a bounds error. -/
theorem inelasticBG_left_overhang_counterexample :
    ((argminAbs [0, 1, 2, 3, 4] 0 : ℤ) - 1 < 0) ∧
      (inelasticBGSubstract (fun xch ych => 0) [0, 1, 2, 3, 4] [0, 1, 2, 3, 4]
        [(0, 0)] 1).isSome = true :=
  ⟨by decide, by decide⟩

